import Mathlib

/-!
Verification of the Reed-Solomon encode/fold core in `src/utils/code.rs`.

The repository's own code is the `Code` struct with `Code::new` (encode),
`Code::fold_code` and the per-position kernel `fold`, over the 128-bit binary
field `BinaryField128b`.  The binary-field arithmetic library and the additive
NTT engine are external collaborators (spec section 1 declares them out of
scope and section 6 fixes their interface), so they are modelled here from the
spec: the field is an arbitrary commutative ring, with characteristic-2
hypotheses (`∀ x, x + x = 0`) added exactly where binary-field arithmetic is
used; the NTT collaborator is a twiddle table together with the additive-NTT
butterfly network the spec describes ("forward additive transform that
evaluates a buffer of wide-field coefficients on a chosen coset", "twiddle
lookup keyed by (round, index) used to undo one layer of the butterfly").
-/

namespace RS

/-- Transcribed from `src/utils/code.rs`: `pub const RATE: usize = 4;`. -/
def RATE : Nat := 4

/-- Transcribed from `src/utils/code.rs`: `pub const LOG_RATE: usize = 2;`. -/
def LOG_RATE : Nat := 2

/-- `Code<F>` from `src/utils/code.rs`: struct containing the Reed-Solomon
encoding of a message, an ordered sequence of wide-field values. -/
structure Code (F : Type) where
  encoding : List F
deriving DecidableEq

/-- Modelled from the spec (section 6): the transform collaborator
(`MultithreadedNTT` of the external `binius_ntt` crate).  Its data is the
configured domain size and the read-only twiddle/"subspace evaluation" table,
keyed by (layer, index). -/
structure Ntt (F : Type) where
  logDomain : Nat
  sEvals : Nat → Nat → F

/-- `ntt.get_subspace_eval(round, idx)` from the collaborator interface:
the twiddle factor for the inverse-NTT butterfly at (round, idx). -/
def Ntt.getSubspaceEval (ntt : Ntt F) (round idx : Nat) : F :=
  ntt.sEvals round idx

/-- Error taxonomy of the spec (sections 4 and 7) for the fallible paths of
encoding.  The source surfaces these as `unwrap`-style fatal failures; the
shallow embedding returns them through `Except`. -/
inductive CodeError where
  | Repacking
  | DomainTooSmall
  | PowerOfTwoLengthRequired
deriving DecidableEq

/-- Even-indexed elements of a list (positions 0, 2, 4, ...). -/
def evensL : List α → List α
  | [] => []
  | [a] => [a]
  | a :: _ :: rest => a :: evensL rest

/-- Odd-indexed elements of a list (positions 1, 3, 5, ...). -/
def oddsL : List α → List α
  | [] => []
  | [_] => []
  | _ :: b :: rest => b :: oddsL rest

/-- Modelled from the spec: one butterfly layer of the additive NTT.  Pairs
`(E s, O s)` are combined into output positions `2s` and `2s+1` with the
twiddle `w s`, by the butterfly `data[idx0] += data[idx1] * twiddle;
data[idx1] += data[idx0]` the fold kernel undoes.  `t` is the index of the
first pair, so the twiddle of the head pair is `w t`. -/
def nttLayer [CommRing F] (w : Nat → F) : Nat → List F → List F → List F
  | _, [], _ => []
  | _, _ :: _, [] => []
  | t, e :: es, o :: os =>
    let u := e + o * w t
    u :: (u + o) :: nttLayer w (t + 1) es os

/-- Modelled from the spec (section 6): `forward_transform(buffer, coset,
base_layer)` of the additive NTT collaborator, on a buffer of length `2 ^ d`.
Evaluates the buffer (coefficients in the novel polynomial basis) on coset
`coset`; layer `i` of the butterfly network reads twiddle table row
`off + i` at index `coset * 2 ^ (d - 1 - i) + block`.  The recursion
transforms the even- and odd-decimated halves at base layer `off + 1` and
then applies the bottom layer (row `off`) pairwise. -/
def Ntt.forwardTransform [CommRing F] (ntt : Ntt F) (coset off : Nat) :
    (d : Nat) → List F → List F
  | 0, m => m
  | d + 1, m =>
    nttLayer (fun s => ntt.getSubspaceEval off (coset * 2 ^ d + s)) 0
      (ntt.forwardTransform coset (off + 1) d (evensL m))
      (ntt.forwardTransform coset (off + 1) d (oddsL m))

/-- Modelled from the spec (section 6): the packing collaborator of the
external binary-field library — the extension degree `DEGREE` of the wide
field over the message field and the lift `from_bases` of one chunk of
`DEGREE` narrow coordinates into a wide element. -/
structure Packing (S F : Type) where
  DEGREE : Nat
  fromBases : List S → F

/-- Chunking loop of `message.par_chunks(DEGREE)`: consecutive chunks of size
`n`, the last chunk possibly shorter.  `fuel` bounds the recursion and is
instantiated with the list length. -/
def parChunksGo (n : Nat) : Nat → List α → List (List α)
  | 0, _ => []
  | _ + 1, [] => []
  | fuel + 1, a :: l => (a :: l).take n :: parChunksGo n fuel ((a :: l).drop n)

/-- `message.par_chunks(n)` from `Code::new`. -/
def parChunks (n : Nat) (l : List α) : List (List α) :=
  parChunksGo n l.length l

/-- The repacking map of `Code::new`: `from_bases(chunk).unwrap()` on every
chunk.  Modelled from the spec (section 6): the lift "fails if the tuple
length does not equal the declared extension degree", and the failure
propagates (spec section 7: atomic failure, no partial output). -/
def repackList (pk : Packing S F) : List (List S) → Except CodeError (List F)
  | [] => .ok []
  | chunk :: rest =>
    if chunk.length = pk.DEGREE then
      match repackList pk rest with
      | .ok tl => .ok (pk.fromBases chunk :: tl)
      | .error e => .error e
    else .error .Repacking

/-- The repacked message of `Code::new`:
`message.par_chunks(DEGREE).map(|c| from_bases(c).unwrap()).collect()`. -/
def repackMessage (pk : Packing S F) (message : List S) :
    Except CodeError (List F) :=
  repackList pk (parChunks pk.DEGREE message)

/-- Base-2 logarithm (floor), fuel-based so that it reduces definitionally. -/
def natLog2Go : Nat → Nat → Nat
  | 0, _ => 0
  | fuel + 1, n => if n < 2 then 0 else natLog2Go fuel (n / 2) + 1

/-- Base-2 logarithm (floor) of the repacked length, used to size the
transform. -/
def natLog2 (n : Nat) : Nat :=
  natLog2Go n n

/-- The coset loop of `Code::new`: `for i in 0..RATE { temp =
repacked.clone(); ntt.forward_transform(&mut temp, i, 0); encoding.append(&mut
temp); }`, generalized over the starting coset and the base layer for the
fold-round induction.  `encodeCosets ntt off d m start count` is the
concatenation, in increasing coset order, of the transforms of `m` on cosets
`start, start+1, ..., start+count-1` at base layer `off`. -/
def encodeCosets [CommRing F] (ntt : Ntt F) (off d : Nat) (m : List F) :
    Nat → Nat → List F
  | _, 0 => []
  | start, count + 1 =>
    ntt.forwardTransform start off d m ++ encodeCosets ntt off d m (start + 1) count

/-- Everything of `Code::new` after the repacking: length/domain checks of the
transform collaborator (spec section 4.1: the domain must address index
`RATE * repacked.len() - 1`; the additive NTT needs a power-of-two buffer),
then the per-coset transform loop. -/
def encodePost [CommRing F] (ntt : Ntt F) (repacked : List F) :
    Except CodeError (Code F) :=
  if repacked.length = 2 ^ natLog2 repacked.length then
    if natLog2 repacked.length + LOG_RATE ≤ ntt.logDomain then
      .ok ⟨encodeCosets ntt 0 (natLog2 repacked.length) repacked 0 RATE⟩
    else .error .DomainTooSmall
  else .error .PowerOfTwoLengthRequired

/-- `Code::new(message, ntt)` from `src/utils/code.rs`: repack the message
into wide-field elements, then transform it on each of the `RATE` cosets at
base layer 0 and concatenate the results in coset order. -/
def Code.new [CommRing F] (pk : Packing S F) (message : List S) (ntt : Ntt F) :
    Except CodeError (Code F) :=
  match repackMessage pk message with
  | .error e => .error e
  | .ok repacked => encodePost ntt repacked

/-- `fold(r, round, idx, val0, val1, ntt)` from `src/utils/code.rs`:
```
let twiddle = ntt.get_subspace_eval(round, idx);
let (mut x0, mut x1) = (val0, val1);
x1 += x0;
x0 += x1 * twiddle;
x0 + r * (x0 + x1)
```
-/
def fold [CommRing F] (r : F) (round idx : Nat) (val0 val1 : F)
    (ntt : Ntt F) : F :=
  let twiddle := ntt.getSubspaceEval round idx
  let x1 := val1 + val0
  let x0 := val0 + x1 * twiddle
  x0 + r * (x0 + x1)

/-- `Code::fold_code(r, round, ntt)` from `src/utils/code.rs`: the output has
half the length (`self.encoding.len() >> 1`), and position `i` is
`fold(r, round, i, encoding[2*i], encoding[2*i + 1], ntt)`. -/
def Code.fold_code [CommRing F] (self : Code F) (r : F) (round : Nat)
    (ntt : Ntt F) : Code F :=
  ⟨(List.range (self.encoding.length / 2)).map (fun i =>
      fold r round i (self.encoding.getD (2 * i) 0)
        (self.encoding.getD (2 * i + 1) 0) ntt)⟩

/-- `Code::idx` from `src/utils/code.rs`: positional accessor (the source
panics out of bounds; the embedding returns `none`). -/
def Code.idx (self : Code F) (i : Nat) : Option F :=
  self.encoding[i]?

/-- The fold-round loop of the caller (test `test_fold`): fold with challenge
`chals[0]` at round `start`, then `chals[1]` at `start + 1`, and so on. -/
def foldRounds [CommRing F] (ntt : Ntt F) (code : Code F) :
    List F → Nat → Code F
  | [], _ => code
  | r :: rs, start => foldRounds ntt (code.fold_code r start ntt) rs (start + 1)

/-- Pairwise walk equivalent to the output of `fold_code`: the element built
from input pair `(2*i, 2*i+1)` carries global output index `base + i`. -/
def foldPairs [CommRing F] (ntt : Ntt F) (r : F) (round : Nat) :
    Nat → List F → List F
  | _, [] => []
  | _, [_] => []
  | base, v0 :: v1 :: rest =>
    fold r round base v0 v1 ntt :: foldPairs ntt r round (base + 1) rest

/-- One fold round on the message side: entry `j` of the folded message is
`m[2j] + r * (m[2j] + m[2j+1])`. -/
def foldMessage [CommRing F] (r : F) : List F → List F
  | v0 :: v1 :: rest => (v0 + r * (v0 + v1)) :: foldMessage r rest
  | _ => []

/-- Iterated `foldMessage`, one challenge per round. -/
def foldMessageIter [CommRing F] : List F → List F → List F
  | [], m => m
  | r :: rs, m => foldMessageIter rs (foldMessage r m)

/-- The affine combination the fold binds at each position:
`e + challenge * (e + o)`. -/
def foldAffine [CommRing F] (r e o : F) : F :=
  e + r * (e + o)

/-- The multilinear Lagrange basis polynomial `L_j` evaluated at the challenge
point: bit `b` of `j` selects the factor `chals[b]` (bit 1) or
`1 - chals[b]` (bit 0). -/
def lagrangeBasis [CommRing F] : List F → Nat → F
  | [], _ => 1
  | r :: rs, j => (if j % 2 = 1 then r else 1 - r) * lagrangeBasis rs (j / 2)

/-- Weighted sum `Σ_j m[j] * w (t + j)` (`t` is the index of the head). -/
def weightedSum [CommRing F] (w : Nat → F) : Nat → List F → F
  | _, [] => 0
  | t, v :: rest => v * w t + weightedSum w (t + 1) rest

/-- Pre-sized parallel output buffer written one slot per task, in the order
`order` in which the tasks happen to complete: models the scheduling freedom
of the data-parallel loops (spec section 5). -/
def writeSlots (g : Nat → α) (init : List α) (order : List Nat) : List α :=
  order.foldl (fun buf i => buf.set i (g i)) init

/-- The repacking stage of `Code::new` under an explicit parallel schedule:
every chunk is checked (a bad chunk fails the whole stage), and the
slot of chunk `i` is written with `from_bases(chunks[i])` when task `i`
completes. -/
def repackSched [CommRing F] (pk : Packing S F) (message : List S)
    (order : List Nat) : Except CodeError (List F) :=
  let chunks := parChunks pk.DEGREE message
  if chunks.all (fun c => c.length = pk.DEGREE) then
    .ok (writeSlots (fun i => pk.fromBases (chunks.getD i []))
      (List.replicate chunks.length 0) order)
  else .error .Repacking

/-- `Code::new` with the repacking stage executed under an explicit parallel
schedule `order`. -/
def Code.newSched [CommRing F] (pk : Packing S F) (message : List S)
    (ntt : Ntt F) (order : List Nat) : Except CodeError (Code F) :=
  match repackSched pk message order with
  | .error e => .error e
  | .ok repacked => encodePost ntt repacked

/-- The identity packing of the wide field over itself: extension degree 1,
a chunk `[x]` lifts to `x` (`Code::new` instantiated at
`F = BinaryField128b`, where `DEGREE = 1`). -/
def idPacking (F : Type) [CommRing F] : Packing F F :=
  ⟨1, fun l => l.headD 0⟩

/-- Concrete transform collaborator over the binary field GF(2) (`ZMod 2`),
used to evaluate the theorems at concrete inputs: domain of size `2 ^ 3`,
every twiddle equal to 1. -/
def nttW : Ntt (ZMod 2) := ⟨3, fun _ _ => 1⟩

/-- Concrete degree-2 packing over GF(2), used to evaluate the theorems at
concrete inputs. -/
def pkW : Packing (ZMod 2) (ZMod 2) := ⟨2, fun l => l.headD 0⟩

/-! ### List helpers -/

theorem evensL_length : (l : List α) → (evensL l).length = (l.length + 1) / 2
  | [] => by simp [evensL]
  | [_] => by simp [evensL]
  | _ :: _ :: rest => by
    simp [evensL, evensL_length rest]
    omega

theorem oddsL_length : (l : List α) → (oddsL l).length = l.length / 2
  | [] => by simp [oddsL]
  | [_] => by simp [oddsL]
  | _ :: _ :: rest => by
    simp [oddsL, oddsL_length rest]
    omega

theorem evensL_zipWith (f : α → α → α) : (a b : List α) →
    evensL (List.zipWith f a b) = List.zipWith f (evensL a) (evensL b)
  | [], _ => by simp [evensL]
  | [a₀], [] => by simp [evensL]
  | [a₀], b₀ :: bs => by cases bs <;> simp [evensL]
  | a₀ :: a₁ :: as, [] => by simp [evensL]
  | a₀ :: a₁ :: as, [b₀] => by simp [evensL]
  | a₀ :: a₁ :: as, b₀ :: b₁ :: bs => by
    simp [evensL, evensL_zipWith f as bs]

theorem oddsL_zipWith (f : α → α → α) : (a b : List α) →
    oddsL (List.zipWith f a b) = List.zipWith f (oddsL a) (oddsL b)
  | [], _ => by simp [oddsL]
  | [a₀], [] => by simp [oddsL]
  | [a₀], b₀ :: bs => by cases bs <;> simp [oddsL]
  | a₀ :: a₁ :: as, [] => by simp [oddsL]
  | a₀ :: a₁ :: as, [b₀] => by simp [oddsL]
  | a₀ :: a₁ :: as, b₀ :: b₁ :: bs => by
    simp [oddsL, oddsL_zipWith f as bs]

/-! ### Butterfly layer lemmas -/

theorem nttLayer_length [CommRing F] (w : Nat → F) : (t : Nat) →
    (E O : List F) → (nttLayer w t E O).length = 2 * min E.length O.length
  | _, [], _ => by simp [nttLayer]
  | _, _ :: _, [] => by simp [nttLayer]
  | t, e :: es, o :: os => by
    simp [nttLayer, nttLayer_length w (t + 1) es os]
    omega

theorem nttLayer_affine [CommRing F] (w : Nat → F) (r : F) :
    (t : Nat) → (E₁ O₁ E₂ O₂ : List F) →
    nttLayer w t (List.zipWith (foldAffine r) E₁ E₂)
        (List.zipWith (foldAffine r) O₁ O₂) =
      List.zipWith (foldAffine r) (nttLayer w t E₁ O₁) (nttLayer w t E₂ O₂)
  | _, [], _, _, _ => by simp [nttLayer]
  | _, _ :: _, [], E₂, _ => by cases E₂ <;> simp [nttLayer]
  | _, _ :: _, _ :: _, [], _ => by simp [nttLayer]
  | _, _ :: _, _ :: _, _ :: _, [] => by simp [nttLayer]
  | t, e₁ :: es₁, o₁ :: os₁, e₂ :: es₂, o₂ :: os₂ => by
    simp only [List.zipWith_cons_cons, nttLayer,
      nttLayer_affine w r (t + 1) es₁ os₁ es₂ os₂]
    congr 1
    · simp only [foldAffine]; ring
    congr 1
    simp only [foldAffine]; ring

/-! ### Forward transform lemmas -/

theorem forwardTransform_length [CommRing F] (ntt : Ntt F) (coset : Nat) :
    (d : Nat) → (off : Nat) → (m : List F) → m.length = 2 ^ d →
    (ntt.forwardTransform coset off d m).length = 2 ^ d
  | 0, _, m, hm => by simpa [Ntt.forwardTransform] using hm
  | d + 1, off, m, hm => by
    have he : (evensL m).length = 2 ^ d := by
      rw [evensL_length, hm]; omega
    have ho : (oddsL m).length = 2 ^ d := by
      rw [oddsL_length, hm]; omega
    simp only [Ntt.forwardTransform, nttLayer_length,
      forwardTransform_length ntt coset d (off + 1) (evensL m) he,
      forwardTransform_length ntt coset d (off + 1) (oddsL m) ho]
    omega

theorem forwardTransform_affine [CommRing F] (ntt : Ntt F) (coset : Nat)
    (r : F) : (d : Nat) → (off : Nat) → (a b : List F) →
    ntt.forwardTransform coset off d (List.zipWith (foldAffine r) a b) =
      List.zipWith (foldAffine r) (ntt.forwardTransform coset off d a)
        (ntt.forwardTransform coset off d b)
  | 0, _, _, _ => by simp [Ntt.forwardTransform]
  | d + 1, off, a, b => by
    simp only [Ntt.forwardTransform, evensL_zipWith, oddsL_zipWith,
      forwardTransform_affine ntt coset r d (off + 1) (evensL a) (evensL b),
      forwardTransform_affine ntt coset r d (off + 1) (oddsL a) (oddsL b),
      nttLayer_affine]

/-! ### Fold kernel vs. butterfly layer -/

theorem fold_butterfly_char2 [CommRing F] (h2 : ∀ x : F, x + x = 0)
    (ntt : Ntt F) (r : F) (round idx : Nat) (e o : F) :
    fold r round idx (e + o * ntt.getSubspaceEval round idx)
      (e + o * ntt.getSubspaceEval round idx + o) ntt = foldAffine r e o := by
  simp only [fold, foldAffine]
  set tw := ntt.getSubspaceEval round idx with htw
  linear_combination h2 (o * tw + (e + o * tw) * tw) +
    r * h2 ((e + o * tw) + o * tw + (e + o * tw) * tw)

theorem foldPairs_nttLayer [CommRing F] (h2 : ∀ x : F, x + x = 0)
    (ntt : Ntt F) (r : F) (round β : Nat) : (t : Nat) → (E O : List F) →
    E.length = O.length →
    foldPairs ntt r round (β + t)
        (nttLayer (fun s => ntt.getSubspaceEval round (β + s)) t E O) =
      List.zipWith (foldAffine r) E O
  | _, [], O, h => by
    have : O = [] := by cases O <;> simp_all
    subst this
    simp [nttLayer, foldPairs]
  | _, _ :: _, [], h => by simp at h
  | t, e :: es, o :: os, h => by
    simp only [nttLayer, foldPairs, List.zipWith_cons_cons]
    congr 1
    · exact fold_butterfly_char2 h2 ntt r round (β + t) e o
    · exact foldPairs_nttLayer h2 ntt r round β (t + 1) es os (by simpa using h)

/-! ### foldPairs and fold_code -/

theorem foldPairs_length [CommRing F] (ntt : Ntt F) (r : F) (round : Nat) :
    (l : List F) → (base : Nat) →
    (foldPairs ntt r round base l).length = l.length / 2
  | [], _ => by simp [foldPairs]
  | [_], _ => by simp [foldPairs]
  | _ :: _ :: rest, base => by
    simp only [foldPairs, List.length_cons,
      foldPairs_length ntt r round rest (base + 1)]
    omega

theorem foldPairs_append [CommRing F] (ntt : Ntt F) (r : F) (round : Nat) :
    (A B : List F) → (base : Nat) → A.length % 2 = 0 →
    foldPairs ntt r round base (A ++ B) =
      foldPairs ntt r round base A ++
        foldPairs ntt r round (base + A.length / 2) B
  | [], _, _, _ => by simp [foldPairs]
  | [_], _, _, h => by simp at h
  | a₀ :: a₁ :: A, B, base, h => by
    simp only [List.cons_append, foldPairs, List.length_cons, List.append_eq]
    rw [foldPairs_append ntt r round A B (base + 1) (by simp at h; omega)]
    have harith : base + 1 + A.length / 2 = base + (A.length + 1 + 1) / 2 := by
      omega
    rw [harith]

theorem rangeMap_foldPairs [CommRing F] (ntt : Ntt F) (r : F) (round : Nat) :
    (cw : List F) → (base : Nat) →
    (List.range (cw.length / 2)).map (fun i =>
        fold r round (base + i) (cw.getD (2 * i) 0)
          (cw.getD (2 * i + 1) 0) ntt) =
      foldPairs ntt r round base cw
  | [], base => by simp [foldPairs]
  | [v], base => by simp [foldPairs]
  | v0 :: v1 :: rest, base => by
    have hlen : (v0 :: v1 :: rest).length / 2 = rest.length / 2 + 1 := by
      simp only [List.length_cons]; omega
    rw [hlen, List.range_succ_eq_map, List.map_cons, List.map_map]
    simp only [foldPairs]
    rw [← rangeMap_foldPairs ntt r round rest (base + 1)]
    congr 1
    refine List.map_congr_left fun i _ => ?_
    have e1 : 2 * Nat.succ i = 2 * i + 1 + 1 := by omega
    have e2 : 2 * Nat.succ i + 1 = 2 * i + 1 + 1 + 1 := by omega
    have e3 : base + Nat.succ i = base + 1 + i := by omega
    simp only [Function.comp_apply, e1, e2, e3, List.getD_cons_succ]

theorem fold_code_eq_foldPairs [CommRing F] (c : Code F) (r : F)
    (round : Nat) (ntt : Ntt F) :
    c.fold_code r round ntt = ⟨foldPairs ntt r round 0 c.encoding⟩ := by
  unfold Code.fold_code
  congr 1
  rw [← rangeMap_foldPairs ntt r round c.encoding 0]
  refine List.map_congr_left fun i _ => ?_
  rw [Nat.zero_add]

/-! ### Message-side fold -/

theorem foldMessage_eq_zipWith [CommRing F] (r : F) : (m : List F) →
    foldMessage r m = List.zipWith (foldAffine r) (evensL m) (oddsL m)
  | [] => by simp [foldMessage, evensL, oddsL]
  | [v] => by simp [foldMessage, evensL, oddsL]
  | v0 :: v1 :: rest => by
    simp [foldMessage, evensL, oddsL, foldAffine, foldMessage_eq_zipWith r rest]

theorem foldMessage_length [CommRing F] (r : F) : (m : List F) →
    (foldMessage r m).length = m.length / 2
  | [] => by simp [foldMessage]
  | [_] => by simp [foldMessage]
  | _ :: _ :: rest => by
    simp only [foldMessage, List.length_cons, foldMessage_length r rest]
    omega

/-! ### Encode loop lemmas -/

theorem encodeCosets_length [CommRing F] (ntt : Ntt F) (off d : Nat)
    (m : List F) (hm : m.length = 2 ^ d) : (count start : Nat) →
    (encodeCosets ntt off d m start count).length = count * 2 ^ d
  | 0, _ => by simp [encodeCosets]
  | count + 1, start => by
    simp only [encodeCosets, List.length_append,
      forwardTransform_length ntt start d off m hm,
      encodeCosets_length ntt off d m hm count (start + 1)]
    ring

theorem foldPairs_encodeCosets [CommRing F] (h2 : ∀ x : F, x + x = 0)
    (ntt : Ntt F) (r : F) (round d : Nat) (m : List F)
    (hm : m.length = 2 ^ (d + 1)) : (count start : Nat) →
    foldPairs ntt r round (start * 2 ^ d)
        (encodeCosets ntt round (d + 1) m start count) =
      encodeCosets ntt (round + 1) d (foldMessage r m) start count
  | 0, _ => by simp [encodeCosets, foldPairs]
  | count + 1, start => by
    have hFTlen : (ntt.forwardTransform start round (d + 1) m).length =
        2 ^ (d + 1) := forwardTransform_length ntt start (d + 1) round m hm
    have hElen : (ntt.forwardTransform start (round + 1) d (evensL m)).length
        = 2 ^ d := by
      refine forwardTransform_length ntt start d (round + 1) (evensL m) ?_
      rw [evensL_length, hm]
      omega
    have hOlen : (ntt.forwardTransform start (round + 1) d (oddsL m)).length
        = 2 ^ d := by
      refine forwardTransform_length ntt start d (round + 1) (oddsL m) ?_
      rw [oddsL_length, hm]
      omega
    simp only [encodeCosets]
    rw [foldPairs_append ntt r round _ _ _ (by rw [hFTlen]; omega)]
    congr 1
    · show foldPairs ntt r round (start * 2 ^ d)
        (ntt.forwardTransform start round (d + 1) m) =
          ntt.forwardTransform start (round + 1) d (foldMessage r m)
      have hlayer := foldPairs_nttLayer h2 ntt r round (start * 2 ^ d) 0
        (ntt.forwardTransform start (round + 1) d (evensL m))
        (ntt.forwardTransform start (round + 1) d (oddsL m))
        (by rw [hElen, hOlen])
      simp only [Nat.add_zero] at hlayer
      conv_lhs => rw [Ntt.forwardTransform]
      rw [hlayer]
      rw [foldMessage_eq_zipWith r m,
        forwardTransform_affine ntt start r d (round + 1) (evensL m) (oddsL m)]
    · have hpow : 2 ^ (d + 1) / 2 = 2 ^ d := by
        rw [pow_succ]
        exact Nat.mul_div_cancel _ (by norm_num)
      rw [hFTlen, hpow]
      have harith : start * 2 ^ d + 2 ^ d = (start + 1) * 2 ^ d := by ring
      rw [harith,
        foldPairs_encodeCosets h2 ntt r round d m hm count (start + 1)]

theorem fold_code_encodeCosets [CommRing F] (h2 : ∀ x : F, x + x = 0)
    (ntt : Ntt F) (r : F) (round d : Nat) (m : List F)
    (hm : m.length = 2 ^ (d + 1)) :
    Code.fold_code ⟨encodeCosets ntt round (d + 1) m 0 RATE⟩ r round ntt =
      ⟨encodeCosets ntt (round + 1) d (foldMessage r m) 0 RATE⟩ := by
  rw [fold_code_eq_foldPairs]
  congr 1
  have h := foldPairs_encodeCosets h2 ntt r round d m hm RATE 0
  simpa using h

theorem foldRounds_encodeCosets [CommRing F] (h2 : ∀ x : F, x + x = 0)
    (ntt : Ntt F) : (chals : List F) → (round : Nat) → (m : List F) →
    m.length = 2 ^ chals.length →
    foldRounds ntt ⟨encodeCosets ntt round chals.length m 0 RATE⟩ chals round
      = ⟨encodeCosets ntt (round + chals.length) 0
          (foldMessageIter chals m) 0 RATE⟩
  | [], round, m, hm => by simp [foldRounds, foldMessageIter]
  | r :: rs, round, m, hm => by
    have hm2 : m.length = 2 ^ (rs.length + 1) := by simpa using hm
    have hfm : (foldMessage r m).length = 2 ^ rs.length := by
      rw [foldMessage_length, hm2, pow_succ]
      exact Nat.mul_div_cancel _ (by norm_num)
    simp only [foldRounds, foldMessageIter, List.length_cons]
    rw [fold_code_encodeCosets h2 ntt r round rs.length m hm2]
    rw [foldRounds_encodeCosets h2 ntt rs (round + 1) (foldMessage r m) hfm]
    have harith : round + 1 + rs.length = round + (rs.length + 1) := by omega
    rw [harith]

/-! ### Multilinear extension lemmas -/

theorem weightedSum_eq_rangeSum [CommRing F] (w : Nat → F) : (m : List F) →
    (t : Nat) →
    weightedSum w t m =
      ((List.range m.length).map (fun j => m.getD j 0 * w (t + j))).sum
  | [], t => by simp [weightedSum]
  | v :: rest, t => by
    rw [List.length_cons, List.range_succ_eq_map, List.map_cons, List.map_map,
      List.sum_cons]
    simp only [weightedSum, List.getD_cons_zero, Nat.add_zero]
    rw [weightedSum_eq_rangeSum w rest (t + 1)]
    congr 1
    refine congrArg List.sum ?_
    refine List.map_congr_left fun j _ => ?_
    simp only [Function.comp_apply, List.getD_cons_succ]
    have harith : t + Nat.succ j = t + 1 + j := by omega
    rw [harith]

theorem weightedSum_foldMessage [CommRing F] (h2 : ∀ x : F, x + x = 0)
    (r : F) (rs : List F) : (m : List F) → (t : Nat) → m.length % 2 = 0 →
    weightedSum (fun j => lagrangeBasis (r :: rs) j) (2 * t) m =
      weightedSum (fun j => lagrangeBasis rs j) t (foldMessage r m)
  | [], t, _ => by simp [weightedSum, foldMessage]
  | [_], t, h => by simp at h
  | v0 :: v1 :: rest, t, h => by
    have hrest : rest.length % 2 = 0 := by simp at h; omega
    have hL0 : lagrangeBasis (r :: rs) (2 * t) =
        (1 - r) * lagrangeBasis rs t := by
      simp only [lagrangeBasis]
      rw [if_neg (by omega), Nat.mul_div_cancel_left t (by norm_num)]
    have hL1 : lagrangeBasis (r :: rs) (2 * t + 1) = r * lagrangeBasis rs t := by
      simp only [lagrangeBasis]
      rw [if_pos (by omega)]
      have : (2 * t + 1) / 2 = t := by omega
      rw [this]
    simp only [weightedSum, foldMessage]
    have harith : 2 * t + 1 + 1 = 2 * (t + 1) := by omega
    rw [harith, weightedSum_foldMessage h2 r rs rest (t + 1) hrest, hL0, hL1]
    linear_combination -h2 (r * v0 * lagrangeBasis rs t)

theorem foldMessageIter_eq_mle [CommRing F] (h2 : ∀ x : F, x + x = 0) :
    (chals : List F) → (m : List F) → m.length = 2 ^ chals.length →
    foldMessageIter chals m =
      [weightedSum (fun j => lagrangeBasis chals j) 0 m]
  | [], m, hm => by
    obtain ⟨v, rfl⟩ := List.length_eq_one.mp (by simpa using hm)
    simp [foldMessageIter, weightedSum, lagrangeBasis]
  | r :: rs, m, hm => by
    have hm2 : m.length % 2 = 0 := by rw [hm, List.length_cons, pow_succ]; omega
    have hfm : (foldMessage r m).length = 2 ^ rs.length := by
      rw [foldMessage_length, hm, List.length_cons, pow_succ]
      exact Nat.mul_div_cancel _ (by norm_num)
    simp only [foldMessageIter]
    rw [foldMessageIter_eq_mle h2 rs (foldMessage r m) hfm]
    congr 1
    have hws := weightedSum_foldMessage h2 r rs m 0 hm2
    simp only [Nat.mul_zero] at hws
    exact hws.symm

/-! ### Repacking lemmas -/

theorem parChunksGo_all_length {α : Type} (n : Nat) (hn : 0 < n) :
    (q : Nat) → (l : List α) → (fuel : Nat) → l.length = n * q →
    l.length ≤ fuel →
    (parChunksGo n fuel l).length = q ∧
      ∀ c ∈ parChunksGo n fuel l, c.length = n
  | 0, l, fuel, hl, _ => by
    have : l = [] := List.length_eq_zero.mp (by omega)
    subst this
    cases fuel <;> simp [parChunksGo]
  | q + 1, l, fuel, hl, hfuel => by
    have hmul : n * (q + 1) = n * q + n := by rw [Nat.mul_succ]
    have hlen : n ≤ l.length := by omega
    obtain ⟨a, l', rfl⟩ : ∃ a l', l = a :: l' := by
      cases l with
      | nil => simp at hl; omega
      | cons a l' => exact ⟨a, l', rfl⟩
    obtain ⟨f, rfl⟩ : ∃ f, fuel = f + 1 := by
      cases fuel with
      | zero => simp at hfuel
      | succ f => exact ⟨f, rfl⟩
    have hdlen : ((a :: l').drop n).length = n * q := by
      rw [List.length_drop]; omega
    have hdfuel : ((a :: l').drop n).length ≤ f := by
      rw [List.length_drop]; omega
    obtain ⟨ih1, ih2⟩ :=
      parChunksGo_all_length n hn q ((a :: l').drop n) f hdlen hdfuel
    constructor
    · simp only [parChunksGo, List.length_cons, ih1]
    · intro c hc
      simp only [parChunksGo, List.mem_cons] at hc
      rcases hc with hc | hc
      · rw [hc, List.length_take]; omega
      · exact ih2 c hc

theorem parChunksGo_bad {α : Type} (n : Nat) (hn : 0 < n) : (fuel : Nat) →
    (l : List α) → l.length ≤ fuel → ¬ (n ∣ l.length) →
    ∃ c ∈ parChunksGo n fuel l, c.length ≠ n
  | _, [], _, hnd => by simp at hnd
  | 0, a :: l, hle, _ => by simp at hle
  | f + 1, a :: l, hle, hnd => by
    by_cases hlen : (a :: l).length ≤ n
    · refine ⟨(a :: l).take n, by simp [parChunksGo], ?_⟩
      rw [List.take_of_length_le hlen]
      intro hcon
      exact hnd (hcon ▸ dvd_refl n)
    · push_neg at hlen
      have hdfuel : ((a :: l).drop n).length ≤ f := by
        rw [List.length_drop]; omega
      have hnd2 : ¬ (n ∣ ((a :: l).drop n).length) := by
        rw [List.length_drop]
        intro hdvd
        obtain ⟨t, ht⟩ := hdvd
        exact hnd ⟨t + 1, by rw [Nat.mul_succ]; omega⟩
      obtain ⟨c, hc, hcn⟩ := parChunksGo_bad n hn f ((a :: l).drop n) hdfuel hnd2
      exact ⟨c, by simp only [parChunksGo, List.mem_cons]; exact Or.inr hc, hcn⟩

theorem parChunksGo_one {α : Type} : (fuel : Nat) → (l : List α) →
    l.length ≤ fuel → parChunksGo 1 fuel l = l.map (fun a => [a])
  | fuel, [], _ => by cases fuel <;> simp [parChunksGo]
  | 0, a :: l, h => by simp at h
  | f + 1, a :: l, h => by
    have ht : (a :: l).take 1 = [a] := by simp
    have hd : (a :: l).drop 1 = l := by simp
    simp only [parChunksGo, ht, hd, List.map_cons]
    rw [parChunksGo_one f l (by simp at h; omega)]

theorem repackList_ok (pk : Packing S F) : (chunks : List (List S)) →
    (∀ c ∈ chunks, c.length = pk.DEGREE) →
    repackList pk chunks = .ok (chunks.map pk.fromBases)
  | [], _ => rfl
  | c :: rest, h => by
    have hc : c.length = pk.DEGREE := h c (by simp)
    have hrest := repackList_ok pk rest (fun x hx => h x (by simp [hx]))
    simp only [repackList, if_pos hc, hrest, List.map_cons]

theorem repackList_err (pk : Packing S F) : (chunks : List (List S)) →
    (∃ c ∈ chunks, c.length ≠ pk.DEGREE) →
    repackList pk chunks = .error .Repacking
  | [], h => by simp at h
  | c :: rest, h => by
    by_cases hc : c.length = pk.DEGREE
    · have hrest : ∃ x ∈ rest, x.length ≠ pk.DEGREE := by
        rcases h with ⟨x, hx, hne⟩
        rcases List.mem_cons.mp hx with rfl | hx
        · exact absurd hc hne
        · exact ⟨x, hx, hne⟩
      simp only [repackList, if_pos hc, repackList_err pk rest hrest]
    · simp only [repackList, if_neg hc]

theorem natLog2Go_pow : (k : Nat) → (fuel : Nat) → 2 ^ k ≤ fuel →
    natLog2Go fuel (2 ^ k) = k
  | 0, fuel, h => by
    cases fuel with
    | zero => norm_num at h
    | succ f => simp [natLog2Go]
  | k + 1, fuel, h => by
    have h2 : 2 ≤ 2 ^ (k + 1) := by
      calc 2 = 2 ^ 1 := by norm_num
      _ ≤ 2 ^ (k + 1) := Nat.pow_le_pow_right (by norm_num) (by omega)
    have hlt : 2 ^ k < 2 ^ (k + 1) := by
      rw [pow_succ]; omega
    cases fuel with
    | zero => omega
    | succ f =>
      simp only [natLog2Go]
      rw [if_neg (by omega)]
      have hdiv : 2 ^ (k + 1) / 2 = 2 ^ k := by
        rw [pow_succ]
        exact Nat.mul_div_cancel _ (by norm_num)
      rw [hdiv, natLog2Go_pow k f (by omega)]

theorem natLog2_pow (k : Nat) : natLog2 (2 ^ k) = k :=
  natLog2Go_pow k (2 ^ k) le_rfl

theorem repackMessage_id [CommRing F] (m : List F) :
    repackMessage (idPacking F) m = .ok m := by
  have h1 : parChunks (idPacking F).DEGREE m = m.map (fun a => [a]) :=
    parChunksGo_one m.length m le_rfl
  have h2 : repackList (idPacking F) (m.map fun a => [a]) =
      .ok ((m.map fun a => [a]).map (idPacking F).fromBases) := by
    refine repackList_ok _ _ fun c hc => ?_
    simp only [List.mem_map] at hc
    obtain ⟨a, _, rfl⟩ := hc
    rfl
  unfold repackMessage
  rw [h1, h2, List.map_map]
  congr 1
  have hfun : ((idPacking F).fromBases ∘ fun a => [a]) = fun a : F => a :=
    funext fun a => rfl
  rw [hfun, List.map_id']

/-! ### Parallel write-schedule lemmas -/

theorem writeSlots_getElem {α : Type} (g : Nat → α) : (order : List Nat) →
    (init : List α) → (j : Nat) →
    (writeSlots g init order)[j]? =
      if j ∈ order ∧ j < init.length then some (g j) else init[j]?
  | [], init, j => by simp [writeSlots]
  | i :: rest, init, j => by
    show (writeSlots g (init.set i (g i)) rest)[j]? = _
    rw [writeSlots_getElem g rest (init.set i (g i)) j, List.length_set,
      List.getElem?_set]
    by_cases hj : j < init.length
    · by_cases hjr : j ∈ rest
      · rw [if_pos ⟨hjr, hj⟩, if_pos ⟨List.mem_cons_of_mem i hjr, hj⟩]
      · have h1 : ¬ (j ∈ rest ∧ j < init.length) := by tauto
        rw [if_neg h1]
        by_cases hij : i = j
        · subst hij
          rw [if_pos rfl, if_pos hj, if_pos ⟨List.mem_cons_self i rest, hj⟩]
        · have h2 : ¬ (j ∈ i :: rest ∧ j < init.length) := by
            intro hc
            rcases List.mem_cons.mp hc.1 with rfl | h
            · exact hij rfl
            · exact hjr h
          rw [if_neg hij, if_neg h2]
    · have h1 : ¬ (j ∈ rest ∧ j < init.length) := by tauto
      have h2 : ¬ (j ∈ i :: rest ∧ j < init.length) := by tauto
      rw [if_neg h1, if_neg h2, List.getElem?_eq_none (l := init) (by omega)]
      by_cases hij : i = j
      · subst hij
        rw [if_pos rfl, if_neg (by omega)]
      · rw [if_neg hij]

theorem writeSlots_length {α : Type} (g : Nat → α) : (order : List Nat) →
    (init : List α) → (writeSlots g init order).length = init.length
  | [], _ => rfl
  | i :: rest, init => by
    show (writeSlots g (init.set i (g i)) rest).length = _
    rw [writeSlots_length g rest (init.set i (g i)), List.length_set]

theorem writeSlots_perm {α : Type} (g : Nat → α) (n : Nat) (order : List Nat)
    (hperm : List.Perm order (List.range n)) (init : List α)
    (hlen : init.length = n) :
    writeSlots g init order = (List.range n).map g := by
  refine List.ext_getElem? fun j => ?_
  rw [writeSlots_getElem g order init j]
  have hmem : j ∈ order ↔ j < n := by rw [hperm.mem_iff, List.mem_range]
  by_cases hj : j < n
  · rw [if_pos ⟨hmem.mpr hj, by omega⟩, List.getElem?_map,
      List.getElem?_range hj]
    rfl
  · rw [if_neg (fun h => hj (hmem.mp h.1)),
      List.getElem?_eq_none (l := init) (by omega),
      List.getElem?_eq_none (by simp; omega)]

theorem rangeMap_getD {α β : Type} (f : α → β) (d : α) : (l : List α) →
    (List.range l.length).map (fun i => f (l.getD i d)) = l.map f
  | [] => rfl
  | a :: rest => by
    rw [List.length_cons, List.range_succ_eq_map, List.map_cons, List.map_map]
    refine congrArg₂ List.cons (by simp) ?_
    rw [← rangeMap_getD f d rest]
    refine List.map_congr_left fun i _ => ?_
    simp [List.getD_cons_succ]

theorem repackSched_eq [CommRing F] (pk : Packing S F) (message : List S)
    (order : List Nat)
    (hperm : List.Perm order
      (List.range (parChunks pk.DEGREE message).length)) :
    repackSched pk message order = repackMessage pk message := by
  have hiff : ((parChunks pk.DEGREE message).all
        fun c => c.length = pk.DEGREE) = true ↔
      ∀ c ∈ parChunks pk.DEGREE message, c.length = pk.DEGREE := by
    simp [List.all_eq_true]
  unfold repackMessage
  by_cases hall : ∀ c ∈ parChunks pk.DEGREE message, c.length = pk.DEGREE
  · rw [repackList_ok pk _ hall]
    simp only [repackSched]
    rw [if_pos (hiff.mpr hall)]
    congr 1
    rw [writeSlots_perm _ _ order hperm _ (List.length_replicate _ _)]
    exact rangeMap_getD pk.fromBases [] (parChunks pk.DEGREE message)
  · have hex : ∃ c ∈ parChunks pk.DEGREE message, c.length ≠ pk.DEGREE := by
      push_neg at hall
      exact hall
    rw [repackList_err pk _ hex]
    simp only [repackSched]
    rw [if_neg (fun h => hall (hiff.mp h))]

/-! ### Encode success characterization -/

theorem Code_new_ok [CommRing F] (pk : Packing S F) (message : List S)
    (ntt : Ntt F) (rp : List F) (k : Nat)
    (hrp : repackMessage pk message = .ok rp) (hlen : rp.length = 2 ^ k)
    (hdom : k + LOG_RATE ≤ ntt.logDomain) :
    Code.new pk message ntt = .ok ⟨encodeCosets ntt 0 k rp 0 RATE⟩ := by
  unfold Code.new
  rw [hrp]
  show encodePost ntt rp = _
  unfold encodePost
  rw [hlen, natLog2_pow k, if_pos rfl, if_pos hdom]

/-! ### Remaining small lemmas -/

theorem parChunks_all_length {α : Type} (n : Nat) (hn : 0 < n) (q : Nat)
    (l : List α) (hl : l.length = n * q) :
    (parChunks n l).length = q ∧ ∀ c ∈ parChunks n l, c.length = n :=
  parChunksGo_all_length n hn q l l.length hl le_rfl

theorem foldPairs_dropLast [CommRing F] (ntt : Ntt F) (r : F) (round : Nat) :
    (l : List F) → (base : Nat) → l.length % 2 = 1 →
    foldPairs ntt r round base l = foldPairs ntt r round base l.dropLast
  | [], _, h => by simp at h
  | [v], base, _ => by simp [foldPairs]
  | v0 :: v1 :: rest, base, h => by
    have hrest : rest.length % 2 = 1 := by simp at h; omega
    obtain ⟨c0, cs, rfl⟩ : ∃ c0 cs, rest = c0 :: cs := by
      cases rest with
      | nil => simp at hrest
      | cons c0 cs => exact ⟨c0, cs, rfl⟩
    have hdl : (v0 :: v1 :: c0 :: cs).dropLast =
        v0 :: v1 :: (c0 :: cs).dropLast := rfl
    rw [hdl]
    simp only [foldPairs]
    rw [foldPairs_dropLast ntt r round (c0 :: cs) (base + 1) hrest]

/-! ### Claim theorems -/

/-- C1: for every message of `2 ^ k` wide-field elements and every sequence
of `k` challenges, encoding with `Code::new` and then folding the codeword
`k` times in order (round `i` receives challenge `chals[i]`) yields a
codeword of length `RATE` whose remaining value — every one of its `RATE`
entries — equals `Σ_j message[j] * L_j(chals)`, with `L_j` the multilinear
Lagrange basis polynomial: the message's multilinear extension evaluated at
the challenge point. -/
theorem C1_encode_fold_mle [CommRing F] (h2 : ∀ x : F, x + x = 0)
    (ntt : Ntt F) (k : Nat) (m : List F) (hm : m.length = 2 ^ k)
    (chals : List F) (hch : chals.length = k)
    (hdom : k + LOG_RATE ≤ ntt.logDomain) :
    ∃ code : Code F, Code.new (idPacking F) m ntt = .ok code ∧
      (foldRounds ntt code chals 0).encoding.length = RATE ∧
      ∀ i < RATE, (foldRounds ntt code chals 0).encoding.getD i 0 =
        ((List.range (2 ^ k)).map
          (fun j => m.getD j 0 * lagrangeBasis chals j)).sum := by
  subst hch
  refine ⟨⟨encodeCosets ntt 0 chals.length m 0 RATE⟩,
    Code_new_ok (idPacking F) m ntt m chals.length (repackMessage_id m) hm
      hdom, ?_⟩
  have hrounds := foldRounds_encodeCosets h2 ntt chals 0 m hm
  rw [foldMessageIter_eq_mle h2 chals m hm] at hrounds
  set x := weightedSum (fun j => lagrangeBasis chals j) 0 m with hx
  have hconc : encodeCosets ntt (0 + chals.length) 0 [x] 0 RATE =
      [x, x, x, x] := rfl
  rw [hconc] at hrounds
  rw [hrounds]
  refine ⟨rfl, fun i hi => ?_⟩
  have hxval : x = ((List.range (2 ^ chals.length)).map
      (fun j => m.getD j 0 * lagrangeBasis chals j)).sum := by
    rw [hx, weightedSum_eq_rangeSum, hm]
    refine congrArg List.sum (List.map_congr_left fun j _ => ?_)
    rw [Nat.zero_add]
  have hi4 : i < 4 := hi
  interval_cases i <;> simpa using hxval

/-- C2: for a codeword of even length, every challenge and round, output
position `i` of `fold_code` (for `i < len / 2`) is computed exactly as:
`twiddle = get_subspace_eval(round, i)`; `x0 = c[2i]`; `x1 = c[2i+1]`;
`x1' = x1 + x0`; `x0' = x0 + x1' * twiddle`; output
`= x0' + r * (x0' + x1')`, depending only on the pair `(2i, 2i+1)` and the
shared round. -/
theorem C2_fold_code_pointwise [CommRing F] (c : Code F) (r : F)
    (round : Nat) (ntt : Ntt F) (_heven : c.encoding.length % 2 = 0)
    (i : Nat) (hi : i < c.encoding.length / 2) :
    (c.fold_code r round ntt).encoding[i]? = some (
      let twiddle := ntt.getSubspaceEval round i
      let x0 := c.encoding.getD (2 * i) 0
      let x1 := c.encoding.getD (2 * i + 1) 0
      let x1f := x1 + x0
      let x0f := x0 + x1f * twiddle
      x0f + r * (x0f + x1f)) := by
  unfold Code.fold_code
  rw [List.getElem?_map, List.getElem?_range hi]
  rfl

/-- C3: for a valid message, encode first repacks consecutive `DEGREE`-sized
chunks into wide elements (giving `len / DEGREE` elements), then for each
coset `i = 0, 1, 2, 3` in increasing order transforms the (cloned) repacked
sequence on coset `i` at base layer 0 and appends the result: the codeword is
the coset-major concatenation of the `RATE` per-coset evaluations. -/
theorem C3_encode_structure [CommRing F] (pk : Packing S F) (ntt : Ntt F)
    (msg : List S) (k : Nat) (hdeg : 0 < pk.DEGREE)
    (hlen : msg.length = pk.DEGREE * 2 ^ k)
    (hdom : k + LOG_RATE ≤ ntt.logDomain) :
    repackMessage pk msg =
        .ok ((parChunks pk.DEGREE msg).map pk.fromBases) ∧
      ((parChunks pk.DEGREE msg).map pk.fromBases).length =
        msg.length / pk.DEGREE ∧
      Code.new pk msg ntt = .ok ⟨
        ntt.forwardTransform 0 0 k ((parChunks pk.DEGREE msg).map pk.fromBases)
        ++ (ntt.forwardTransform 1 0 k
              ((parChunks pk.DEGREE msg).map pk.fromBases)
        ++ (ntt.forwardTransform 2 0 k
              ((parChunks pk.DEGREE msg).map pk.fromBases)
        ++ (ntt.forwardTransform 3 0 k
              ((parChunks pk.DEGREE msg).map pk.fromBases)
        ++ [])))⟩ := by
  have hrp : repackMessage pk msg =
      .ok ((parChunks pk.DEGREE msg).map pk.fromBases) :=
    repackList_ok pk _ (parChunks_all_length pk.DEGREE hdeg (2 ^ k) msg hlen).2
  have hrplen : ((parChunks pk.DEGREE msg).map pk.fromBases).length = 2 ^ k := by
    rw [List.length_map,
      (parChunks_all_length pk.DEGREE hdeg (2 ^ k) msg hlen).1]
  have hdiv : msg.length / pk.DEGREE = 2 ^ k := by
    rw [hlen, Nat.mul_div_cancel_left _ hdeg]
  refine ⟨hrp, by rw [hrplen, hdiv], ?_⟩
  rw [Code_new_ok pk msg ntt _ k hrp hrplen hdom]
  rfl

/-- C4: the encoded codeword has length `RATE * message.len() / DEGREE`, and
for every codeword `fold_code` returns a codeword of exactly half the length
(`len / 2`), so the codeword length halves once per fold round. -/
theorem C4_lengths [CommRing F] (pk : Packing S F) (ntt : Ntt F)
    (msg : List S) (k : Nat) (hdeg : 0 < pk.DEGREE)
    (hlen : msg.length = pk.DEGREE * 2 ^ k)
    (hdom : k + LOG_RATE ≤ ntt.logDomain) :
    (∃ code : Code F, Code.new pk msg ntt = .ok code ∧
        code.encoding.length = RATE * msg.length / pk.DEGREE) ∧
      ∀ (c : Code F) (r : F) (round : Nat),
        (c.fold_code r round ntt).encoding.length =
          c.encoding.length / 2 := by
  have hrp : repackMessage pk msg =
      .ok ((parChunks pk.DEGREE msg).map pk.fromBases) :=
    repackList_ok pk _ (parChunks_all_length pk.DEGREE hdeg (2 ^ k) msg hlen).2
  have hrplen : ((parChunks pk.DEGREE msg).map pk.fromBases).length = 2 ^ k := by
    rw [List.length_map,
      (parChunks_all_length pk.DEGREE hdeg (2 ^ k) msg hlen).1]
  constructor
  · refine ⟨_, Code_new_ok pk msg ntt _ k hrp hrplen hdom, ?_⟩
    rw [encodeCosets_length ntt 0 k _ hrplen RATE 0, hlen,
      Nat.mul_div_assoc RATE (Dvd.intro _ rfl),
      Nat.mul_div_cancel_left _ hdeg]
  · intro c r round
    unfold Code.fold_code
    simp

/-- C5 counterexample: over GF(2) with the concrete collaborator `nttW`,
folding the odd-length codeword `[1, 1, 1]` does not fail — `fold_code` is
total, produces the codeword `[0]` of length `⌊3/2⌋ = 1`, and no
`LengthMismatch` error path exists in `fold_code`. -/
theorem C5_counterexample :
    Code.fold_code ⟨[(1 : ZMod 2), 1, 1]⟩ 1 0 nttW = ⟨[0]⟩ := by decide

/-- C5 amended: folding a codeword of odd length does not fail with a
`LengthMismatch` error; `fold_code` totally returns the codeword of length
`len / 2` (rounded down) computed from the first `len - 1` entries, silently
ignoring the trailing element. -/
theorem C5_amended_odd_fold [CommRing F] (c : Code F) (r : F) (round : Nat)
    (ntt : Ntt F) (hodd : c.encoding.length % 2 = 1) :
    c.fold_code r round ntt =
        Code.fold_code ⟨c.encoding.dropLast⟩ r round ntt ∧
      (c.fold_code r round ntt).encoding.length =
        c.encoding.length / 2 := by
  constructor
  · rw [fold_code_eq_foldPairs, fold_code_eq_foldPairs]
    exact congrArg Code.mk
      (foldPairs_dropLast ntt r round c.encoding 0 hodd)
  · unfold Code.fold_code
    simp

/-- C6: encoding a message whose length is not a multiple of `DEGREE` fails
with a `Repacking` error and produces no codeword (the whole call returns the
error — atomic failure). -/
theorem C6_repacking_error [CommRing F] (pk : Packing S F) (ntt : Ntt F)
    (msg : List S) (hdeg : 0 < pk.DEGREE)
    (hbad : msg.length % pk.DEGREE ≠ 0) :
    Code.new pk msg ntt = .error .Repacking := by
  have hnd : ¬ (pk.DEGREE ∣ msg.length) := by
    rw [Nat.dvd_iff_mod_eq_zero]
    exact hbad
  have hex := parChunksGo_bad pk.DEGREE hdeg msg.length msg le_rfl hnd
  unfold Code.new
  rw [show repackMessage pk msg = .error .Repacking from
    repackList_err pk _ hex]

/-- C7: for fixed round, index and input pair (hence fixed twiddle), the fold
kernel is an affine function of the challenge in characteristic 2:
`fold r = fold 0 + r * (fold 0 + fold 1)`, i.e. the output lies on the line
through the outputs at challenges 0 and 1. -/
theorem C7_fold_affine_in_challenge [CommRing F] (h2 : ∀ x : F, x + x = 0)
    (r : F) (round idx : Nat) (v0 v1 : F) (ntt : Ntt F) :
    fold r round idx v0 v1 ntt =
      fold 0 round idx v0 v1 ntt +
        r * (fold 0 round idx v0 v1 ntt + fold 1 round idx v0 v1 ntt) := by
  simp only [fold]
  set tw := ntt.getSubspaceEval round idx with htw
  linear_combination -h2 (r * (v0 + (v1 + v0) * tw))

/-- C8: encoding is a pure deterministic function of the message and domain
configuration: under any two parallel completion orders of the repacking
tasks (both permutations of the task index range), the scheduled encode
produces bit-identical results, both equal to the sequential `Code::new`. -/
theorem C8_encode_deterministic [CommRing F] (pk : Packing S F)
    (msg : List S) (ntt : Ntt F) (order₁ order₂ : List Nat)
    (h1 : List.Perm order₁ (List.range (parChunks pk.DEGREE msg).length))
    (h2 : List.Perm order₂ (List.range (parChunks pk.DEGREE msg).length)) :
    Code.newSched pk msg ntt order₁ = Code.newSched pk msg ntt order₂ ∧
      Code.newSched pk msg ntt order₁ = Code.new pk msg ntt := by
  have e1 : Code.newSched pk msg ntt order₁ = Code.new pk msg ntt := by
    unfold Code.newSched Code.new
    rw [repackSched_eq pk msg order₁ h1]
  have e2 : Code.newSched pk msg ntt order₂ = Code.new pk msg ntt := by
    unfold Code.newSched Code.new
    rw [repackSched_eq pk msg order₂ h2]
  exact ⟨e1.trans e2.symm, e1⟩

/-- C10: for fixed challenge, round and index (hence fixed twiddle), the
fold kernel is additive in the input pair `(val0, val1)` and sends `(0, 0)`
to `0` — linear over the base field, in particular F2-linear. -/
theorem C10_fold_linear_in_inputs [CommRing F] (r : F) (round idx : Nat)
    (a0 a1 b0 b1 : F) (ntt : Ntt F) :
    fold r round idx (a0 + b0) (a1 + b1) ntt =
        fold r round idx a0 a1 ntt + fold r round idx b0 b1 ntt ∧
      fold r round idx 0 0 ntt = 0 := by
  constructor <;> (simp only [fold]; ring)

/-! ### Witness evaluations at concrete inputs -/

/-- Witness for C1 at `F = ZMod 2`, `k = 1`, message `[1, 0]`, challenge
list `[1]`, collaborator `nttW`. -/
theorem C1_witness :
    ∃ code : Code (ZMod 2),
      Code.new (idPacking (ZMod 2)) [1, 0] nttW = .ok code ∧
        (foldRounds nttW code [1] 0).encoding.length = RATE ∧
        ∀ i < RATE, (foldRounds nttW code [1] 0).encoding.getD i 0 =
          ((List.range (2 ^ 1)).map
            (fun j => List.getD [1, 0] j 0 * lagrangeBasis [1] j)).sum :=
  C1_encode_fold_mle (by decide) nttW 1 [1, 0] (by decide) [1] (by decide)
    (by decide)

/-- Witness for C2 at the even-length codeword `[1, 0]` over GF(2),
challenge 1, round 0, output index 0. -/
theorem C2_witness :
    (Code.fold_code ⟨[(1 : ZMod 2), 0]⟩ 1 0 nttW).encoding[0]? = some (
      let twiddle := nttW.getSubspaceEval 0 0
      let x0 := List.getD [(1 : ZMod 2), 0] (2 * 0) 0
      let x1 := List.getD [(1 : ZMod 2), 0] (2 * 0 + 1) 0
      let x1f := x1 + x0
      let x0f := x0 + x1f * twiddle
      x0f + 1 * (x0f + x1f)) :=
  C2_fold_code_pointwise ⟨[1, 0]⟩ 1 0 nttW (by decide) 0 (by decide)

/-- Witness for C3 at the degree-2 packing `pkW`, message `[1, 0, 1, 1]`
over GF(2), `k = 1`. -/
theorem C3_witness :
    repackMessage pkW [1, 0, 1, 1] =
        .ok ((parChunks pkW.DEGREE [1, 0, 1, 1]).map pkW.fromBases) ∧
      ((parChunks pkW.DEGREE [1, 0, 1, 1]).map pkW.fromBases).length =
        (List.length ([1, 0, 1, 1] : List (ZMod 2))) / pkW.DEGREE ∧
      Code.new pkW [1, 0, 1, 1] nttW = .ok ⟨
        nttW.forwardTransform 0 0 1
          ((parChunks pkW.DEGREE [1, 0, 1, 1]).map pkW.fromBases)
        ++ (nttW.forwardTransform 1 0 1
          ((parChunks pkW.DEGREE [1, 0, 1, 1]).map pkW.fromBases)
        ++ (nttW.forwardTransform 2 0 1
          ((parChunks pkW.DEGREE [1, 0, 1, 1]).map pkW.fromBases)
        ++ (nttW.forwardTransform 3 0 1
          ((parChunks pkW.DEGREE [1, 0, 1, 1]).map pkW.fromBases)
        ++ [])))⟩ :=
  C3_encode_structure pkW nttW [1, 0, 1, 1] 1 (by decide) (by decide)
    (by decide)

/-- Witness for C4 at the degree-2 packing `pkW`, message `[1, 0, 1, 1]`
over GF(2), `k = 1`. -/
theorem C4_witness :
    (∃ code : Code (ZMod 2), Code.new pkW [1, 0, 1, 1] nttW = .ok code ∧
        code.encoding.length =
          RATE * (List.length ([1, 0, 1, 1] : List (ZMod 2))) / pkW.DEGREE) ∧
      ∀ (c : Code (ZMod 2)) (r : ZMod 2) (round : Nat),
        (c.fold_code r round nttW).encoding.length =
          c.encoding.length / 2 :=
  C4_lengths pkW nttW [1, 0, 1, 1] 1 (by decide) (by decide) (by decide)

/-- Witness for the amended C5 at the odd-length codeword `[1, 0, 1]` over
GF(2). -/
theorem C5_witness :
    Code.fold_code ⟨[(1 : ZMod 2), 0, 1]⟩ 0 0 nttW =
        Code.fold_code ⟨List.dropLast [(1 : ZMod 2), 0, 1]⟩ 0 0 nttW ∧
      (Code.fold_code ⟨[(1 : ZMod 2), 0, 1]⟩ 0 0 nttW).encoding.length =
        (List.length [(1 : ZMod 2), 0, 1]) / 2 :=
  C5_amended_odd_fold ⟨[1, 0, 1]⟩ 0 0 nttW (by decide)

/-- Witness for C6 at the degree-2 packing `pkW` and the length-1 message
`[1]` over GF(2). -/
theorem C6_witness :
    Code.new pkW [1] nttW = .error .Repacking :=
  C6_repacking_error pkW nttW [1] (by decide) (by decide)

/-- Witness for C7 over GF(2) at challenge 1, round 0, index 0, inputs
`(1, 1)`. -/
theorem C7_witness :
    fold (1 : ZMod 2) 0 0 1 1 nttW =
      fold 0 0 0 1 1 nttW +
        1 * (fold 0 0 0 1 1 nttW + fold 1 0 0 1 1 nttW) :=
  C7_fold_affine_in_challenge (by decide) 1 0 0 1 1 nttW

/-- Witness for C8 at message `[1, 0, 1, 1]` over GF(2) (two repacking
tasks) under the two completion orders `[1, 0]` and `[0, 1]`. -/
theorem C8_witness :
    Code.newSched pkW [1, 0, 1, 1] nttW [1, 0] =
        Code.newSched pkW [1, 0, 1, 1] nttW [0, 1] ∧
      Code.newSched pkW [1, 0, 1, 1] nttW [1, 0] =
        Code.new pkW [1, 0, 1, 1] nttW :=
  C8_encode_deterministic pkW [1, 0, 1, 1] nttW [1, 0] [0, 1] (by decide)
    (by decide)

end RS
